import Mathlib

/-!
Verification of the mean-motion resonance detection engine of
`src/analysis/mercury-system-resonance.py`.

The script works on floating-point data; the embedding models the numeric
values exactly as rationals (`ℚ`), keeping the control flow, the numpy
broadcasting rules, and the exception behaviour of the source.  Real-valued
quantities that the source obtains through `sqrt` or `**1.5` are modelled in
`ℝ` on top of the rational data.
-/

namespace MercuryRes

/-- Maximum denominator passed to `Fraction.limit_denominator`
(`DENOMINATOR_LIMIT`, line 24 of the script). -/
def DENOMINATOR_LIMIT : ℕ := 30

/-- Number of sampled period ratios per pair (`NUMBER_OF_VALUES`, line 25). -/
def NUMBER_OF_VALUES : ℕ := 100

/-- Number of trailing samples used for the libration test
(`NB_LAST_POINTS`, line 27). -/
def NB_LAST_POINTS : ℕ := 50

/-- Libration threshold in degrees for the standard deviation of a resonant
angle (`STD_THRESHOLD`, line 31). -/
def STD_THRESHOLD : ℚ := 40

/-- Lower edge used by the angle folding (`ANGLE_MIN`, line 35). -/
def ANGLE_MIN : ℚ := -180

/-- Upper edge used by the angle folding (`ANGLE_MAX`, line 36). -/
def ANGLE_MAX : ℚ := 180

/-- Python / numpy `%` on reals: the remainder has the sign of the divisor,
`x % m = x - m * floor (x / m)` (used at lines 300 and 307). -/
def pymod (x m : ℚ) : ℚ := x - m * ((⌊x / m⌋ : ℤ) : ℚ)

/-- The two mask corrections of lines 301-304 (and 308-311): both masks are
computed on the value reduced mod 360, then 360 is added where the value is
below `ANGLE_MIN` and subtracted where it is above `ANGLE_MAX`. -/
def foldCorrect (y : ℚ) : ℚ :=
  y + (if y < ANGLE_MIN then 360 else 0) - (if ANGLE_MAX < y then 360 else 0)

/-- Angle folding applied to each entry of `phi` and `delta_longitude`
(lines 300-311): reduce mod 360, then one mask correction pass. -/
def foldAngle (x : ℚ) : ℚ := foldCorrect (pymod x 360)

/-- Mean of a sample list, as computed by `numpy.mean` (division by the
length; the empty case never occurs on the paths the script takes). -/
def npMean (xs : List ℚ) : ℚ := xs.sum / (xs.length : ℚ)

/-- Population variance as computed by `numpy.std(...)^2` (`ddof = 0`):
mean of squared deviations from the mean. -/
def npVar (xs : List ℚ) : ℚ :=
  (xs.map (fun x => (x - npMean xs) ^ 2)).sum / (xs.length : ℚ)

/-- Python `min` over a nonempty collection, folded from the head
(line 315 applies it to the `q+1` row standard deviations). -/
def listMin : List ℚ → ℚ
  | [] => 0
  | x :: xs => xs.foldl min x

/-- Population standard deviation (`numpy.std` with default `ddof = 0`),
the square root living in `ℝ`. -/
noncomputable def npStd (xs : List ℚ) : ℝ := Real.sqrt ((npVar xs : ℚ) : ℝ)

/-- Real-valued variant of `listMin`, for stating the source's
`min(phi.std(1))` literally. -/
noncomputable def listMinR : List ℝ → ℝ
  | [] => 0
  | x :: xs => xs.foldl min x

/-- One trailing sample of a body's `.aei` file: the columns the script reads
(lines 181-185): time, semi-major axis, argument of pericentre, longitude of
the ascending node, mean anomaly. -/
structure OrbRec where
  t : ℚ
  a : ℚ
  g : ℚ
  n : ℚ
  M : ℚ
deriving DecidableEq

/-- Default record used only as the out-of-range value of `List.getD`. -/
def zRec : OrbRec := ⟨0, 0, 0, 0, 0⟩

/-- Longitude of pericentre series `g + n` (lines 286 and 289). -/
def long_of_peri (tr : List OrbRec) : List ℚ := tr.map (fun r => r.g + r.n)

/-- Mean longitude series `M + (g + n)` (lines 287 and 290). -/
def mean_longitude (tr : List OrbRec) : List ℚ :=
  tr.map (fun r => r.M + (r.g + r.n))

/-- Elementwise binary operation with numpy 1-d broadcasting: equal lengths
operate pointwise, a length-one operand is broadcast, anything else raises
(`None`). -/
def bcast (f : ℚ → ℚ → ℚ) (xs ys : List ℚ) : Option (List ℚ) :=
  if xs.length = ys.length then some (List.zipWith f xs ys)
  else if xs.length = 1 then some (ys.map (fun y => f xs.headI y))
  else if ys.length = 1 then some (xs.map (fun x => f x ys.headI))
  else none

/-- Assignment of a 1-d value into a row of a preallocated `(q+1, 50)` matrix
(line 297, `phi[i] = ...` with `phi = np.empty((q+1, NB_LAST_POINTS))`):
the value must have exactly the row width, or length one (broadcast);
otherwise numpy raises. -/
def fillRow (w : ℕ) (xs : List ℚ) : Option (List ℚ) :=
  if xs.length = w then some xs
  else if xs.length = 1 then some (List.replicate w xs.headI)
  else none

/-- Resonance order `q = numerator - denominator` (lines 277-283; the sampled
ratios are at least 1, so the subtraction is taken in `ℕ`). -/
def resOrder (res : ℚ) : ℕ := (res.num - (res.den : ℤ)).toNat

/-- The matrix of unfolded resonant angles (lines 292-297):
row `i` is `(p+q)·meanLong_outer - p·meanLong_inner - i·longPeri_inner
- (q-i)·longPeri_outer`, written into a row of width `NB_LAST_POINTS`. -/
def phiRows (inner outer : List OrbRec) (res : ℚ) : Option (List (List ℚ)) := do
  let lpi := long_of_peri inner
  let lpo := long_of_peri outer
  let mli := mean_longitude inner
  let mlo := mean_longitude outer
  let q := resOrder res
  let temp ← bcast (fun u v => u - v)
    (mlo.map (fun v => (res.num : ℚ) * v))
    (mli.map (fun v => (res.den : ℚ) * v))
  (List.range (q + 1)).mapM (fun (i : ℕ) => do
    let s1 ← bcast (fun u v => u - v) temp (lpi.map (fun v => (i : ℚ) * v))
    let s2 ← bcast (fun u v => u - v) s1 (lpo.map (fun v => (((q - i : ℕ) : ℤ) : ℚ) * v))
    fillRow NB_LAST_POINTS s2)

/-- The folded resonant-angle matrix (lines 300-304). -/
def phiFold (inner outer : List OrbRec) (res : ℚ) : Option (List (List ℚ)) :=
  (phiRows inner outer res).map (fun rs => rs.map (fun row => row.map foldAngle))

/-- Folded difference of the longitudes of pericentre (lines 306-311). -/
def delta_longitude (inner outer : List OrbRec) : Option (List ℚ) :=
  (bcast (fun u v => u - v) (long_of_peri outer) (long_of_peri inner)).map
    (fun l => l.map foldAngle)

/-- The acceptance test of lines 315-317: `min(phi.std(1)) < STD_THRESHOLD`.
Since every variance is nonnegative and the square root is monotone, the
comparison of the smallest standard deviation with the threshold equals the
comparison of the smallest variance with the squared threshold; the
equivalence with the literal `min` of standard deviations is proved below. -/
def libration (rows : List (List ℚ)) : Bool :=
  decide (listMin (rows.map npVar) < STD_THRESHOLD ^ 2)

/-- Acceptance verdict for one candidate: fold the angles, test libration. -/
def candAccept (inner outer : List OrbRec) (res : ℚ) : Option Bool :=
  (phiFold inner outer res).map libration

/-- Bookkeeping of lines 320-329 for one accepted candidate: first acceptance
becomes the primary; later a candidate with strictly smaller numerator
displaces the primary (the old primary is appended to the extra list),
otherwise the candidate itself is appended. -/
def acceptStep (st : Option ℚ × List ℚ) (res : ℚ) : Option ℚ × List ℚ :=
  match st.1 with
  | none => (some res, st.2)
  | some cur =>
    if res.num < cur.num then (some res, st.2 ++ [cur])
    else (some cur, st.2 ++ [res])

/-- The acceptance bookkeeping run over a list of accepted candidates. -/
def acceptLoop (cs : List ℚ) : Option ℚ × List ℚ :=
  cs.foldl acceptStep (none, [])

/-- Per-pair mutable state of the candidate loop: `mean_motion_res[planet]`,
`extra_mean_motion_res[planet]`, `longitude_res[planet]`. -/
structure LoopState where
  prim : Option ℚ
  extra : List ℚ
  flag : Bool
deriving DecidableEq

/-- One iteration of the candidate loop (lines 276-334): build and fold the
resonant angles, build the folded pericentre difference, update the
primary/extra bookkeeping when the libration test passes, and set the
apsidal flag when the pericentre difference has small variance. -/
def candStep (inner outer : List OrbRec) (st : LoopState) (res : ℚ) :
    Option LoopState := do
  let rows ← phiFold inner outer res
  let dl ← delta_longitude inner outer
  let ms := if libration rows then acceptStep (st.prim, st.extra) res
            else (st.prim, st.extra)
  let fl := if npVar dl < STD_THRESHOLD ^ 2 then true else st.flag
  pure ⟨ms.1, ms.2, fl⟩

/-- The candidate loop over all unique candidates of one adjacent pair,
started from the empty state (no primary, no extras, flag `False`).
`none` models a numpy exception aborting the run. -/
def pairLoop (inner outer : List OrbRec) (cs : List ℚ) : Option LoopState :=
  cs.foldlM (candStep inner outer) ⟨none, [], false⟩

/-- The convergent loop of CPython's `Fraction.limit_denominator`
(the library routine called at line 267): continued-fraction state
`(p0, q0, p1, q1)` advanced while the next denominator stays within the
bound.  A non-positive remainder denominator stops the loop; with a reduced
input whose denominator exceeds the bound this branch is never reached. -/
def limloop (maxd : ℕ) (n d p0 q0 p1 q1 : ℤ) : ℤ × ℤ × ℤ × ℤ :=
  if h : 0 < d then
    if q0 + n.fdiv d * q1 > (maxd : ℤ) then (p0, q0, p1, q1)
    else limloop maxd d (n - n.fdiv d * d) p1 q1 (p0 + n.fdiv d * p1)
      (q0 + n.fdiv d * q1)
  else (p0, q0, p1, q1)
termination_by d.toNat
decreasing_by
  rw [Int.fdiv_eq_ediv _ (le_of_lt h)]
  have h1 : n - n / d * d = n % d := by rw [Int.emod_def]; ring
  rw [h1, Int.toNat_lt_toNat h]
  exact Int.emod_lt_of_pos n h

/-- The selection after the convergent loop of `limit_denominator`:
`k = (max_denominator - q0) // q1`, `bound1 = (p0 + k*p1) / (q0 + k*q1)`,
`bound2 = p1 / q1`, and the closer of the two is returned (ties prefer
`bound2`).  The state `r` is `(p0, q0, p1, q1)`. -/
def pickBound (x : ℚ) (maxd : ℕ) (r : ℤ × ℤ × ℤ × ℤ) : ℚ :=
  if |((r.2.2.1 : ℤ) : ℚ) / ((r.2.2.2 : ℤ) : ℚ) - x| ≤
      |((r.1 + (((maxd : ℤ) - r.2.1).fdiv r.2.2.2) * r.2.2.1 : ℤ) : ℚ) /
        ((r.2.1 + (((maxd : ℤ) - r.2.1).fdiv r.2.2.2) * r.2.2.2 : ℤ) : ℚ) - x|
  then ((r.2.2.1 : ℤ) : ℚ) / ((r.2.2.2 : ℤ) : ℚ)
  else ((r.1 + (((maxd : ℤ) - r.2.1).fdiv r.2.2.2) * r.2.2.1 : ℤ) : ℚ) /
    ((r.2.1 + (((maxd : ℤ) - r.2.1).fdiv r.2.2.2) * r.2.2.2 : ℤ) : ℚ)

/-- CPython's `Fraction.limit_denominator`(`max_denominator`): raise for a
bound below one, return the value unchanged when its reduced denominator
already satisfies the bound, otherwise run the convergent loop and return
the closer of the two candidate bounds. -/
def limit_denominator (x : ℚ) (maxd : ℕ) : Option ℚ :=
  if maxd < 1 then none
  else if x.den ≤ maxd then some x
  else some (pickBound x maxd (limloop maxd x.num (x.den : ℤ) 0 1 1 0))

/-- Lines 265-272: map every sampled ratio through the approximator and keep
one occurrence of each value (`list(set(...))`, modelled by the
deterministic `List.dedup`). -/
def resonances (ratios : List ℚ) (maxd : ℕ) : Option (List ℚ) :=
  (ratios.mapM (fun r => limit_denominator r maxd)).map List.dedup

/-- One raw line of an `.aei` file as seen by the per-column conversions of
lines 230-235: for each read column, either the successfully converted value
or a conversion failure. -/
structure RawLine where
  t : Option ℚ
  a : Option ℚ
  g : Option ℚ
  n : Option ℚ
  M : Option ℚ
deriving DecidableEq

/-- The running values of the Python variables `ti, ai, gi, ni, Mi`;
`none` means the variable has not been assigned yet in this run. -/
structure ParseVars where
  t : Option ℚ
  a : Option ℚ
  g : Option ℚ
  n : Option ℚ
  M : Option ℚ
deriving DecidableEq

/-- The `try` block of lines 230-236: the five conversions run in order and
assign as they go; the first failing conversion aborts the rest of the block
(`except: pass`), leaving the later variables at their previous values. -/
def tryLine (st : ParseVars) (l : RawLine) : ParseVars :=
  match l.t with
  | none => st
  | some tv =>
    match l.a with
    | none => { st with t := some tv }
    | some av =>
      match l.g with
      | none => { st with t := some tv, a := some av }
      | some gv =>
        match l.n with
        | none => { st with t := some tv, a := some av, g := some gv }
        | some nv =>
          match l.M with
          | none => { st with t := some tv, a := some av, g := some gv, n := some nv }
          | some Mv => ⟨some tv, some av, some gv, some nv, some Mv⟩

/-- The append statements of lines 238-242, outside the `try`: they read the
current variables, and a variable that has never been assigned raises a
`NameError` (modelled by `Except.error`). -/
def appendVars (st : ParseVars) : Except Unit OrbRec :=
  match st.t, st.a, st.g, st.n, st.M with
  | some tv, some av, some gv, some nv, some Mv => .ok ⟨tv, av, gv, nv, Mv⟩
  | _, _, _, _, _ => .error ()

/-- The reading loop over the trailing lines of one `.aei` file
(lines 227-242), carrying the variable state into and out of the file. -/
def readLines (st : ParseVars) : List RawLine → Except Unit (List OrbRec × ParseVars)
  | [] => .ok ([], st)
  | l :: ls => do
    let st' := tryLine st l
    let r ← appendVars st'
    let (rs, stF) ← readLines st' ls
    .ok (r :: rs, stF)

/-- Variable state in which every variable holds the fields of `r`
(the state after a fully parsed line for `r`). -/
def varsOf (r : OrbRec) : ParseVars := ⟨some r.t, some r.a, some r.g, some r.n, some r.M⟩

/-- Variable state at the start of the program: nothing assigned yet. -/
def initVars : ParseVars := ⟨none, none, none, none, none⟩

/-- A line on which every column conversion fails. -/
def allNoneLine : RawLine := ⟨none, none, none, none, none⟩

/-- Keplerian period from a semi-major axis, `period = a**1.5` (line 144). -/
noncomputable def period (a : ℝ) : ℝ := a ^ (1.5 : ℝ)

/-- The data of one adjacent pair: the semi-major axes of the two bodies as
listed in `element.out` (line 137, used by line 250 through the `period`
array), and the two trailing-window tracks read from the `.aei` files. -/
structure PairData where
  aElemInner : ℚ
  aElemOuter : ℚ
  inner : List OrbRec
  outer : List OrbRec

/-- The observed period ratio that centres the candidate scan
(line 250): `period[planet+1] / period[planet]`, built from the
`element.out` semi-major axes. -/
noncomputable def periodRatio (d : PairData) : ℝ :=
  period (d.aElemOuter : ℝ) / period (d.aElemInner : ℝ)

/-- Semi-major axis of the last sample of a track (0 for an empty track). -/
def lastA (tr : List OrbRec) : ℚ := (tr.getLast?).elim 0 (fun r => r.a)

/-- A track consisting of a single all-zero sample. -/
def track1 : List OrbRec := [zRec]

/-- A full-length track of all-zero samples. -/
def track50 : List OrbRec := List.replicate NB_LAST_POINTS zRec

/-- A two-sample track, shorter than the trailing window. -/
def track2 : List OrbRec := [zRec, zRec]

/-- Concrete pair data whose `element.out` semi-major axes (1 and 4) differ
from the last track samples' semi-major axes (1 and 9). -/
def pairD8 : PairData := ⟨1, 4, [⟨0, 1, 0, 0, 0⟩], [⟨0, 9, 0, 0, 0⟩]⟩

/-- A fully parsed raw line with values 1..5. -/
def goodLine : RawLine := ⟨some 1, some 2, some 3, some 4, some 5⟩

/-- A raw line whose first column converts (to 9) and whose remaining
columns fail. -/
def mixLine : RawLine := ⟨some 9, none, none, none, none⟩

/-! Generic helper lemmas. -/

theorem foldl_min_lt_iff {α : Type*} [LinearOrder α] (c : α) (xs : List α) :
    ∀ x : α, xs.foldl min x < c ↔ x < c ∨ ∃ y ∈ xs, y < c := by
  induction xs with
  | nil => simp
  | cons a as ih =>
    intro x
    rw [List.foldl_cons, ih (min x a)]
    simp only [min_lt_iff, List.mem_cons]
    constructor
    · rintro ((h | h) | ⟨y, hy, h⟩)
      · exact Or.inl h
      · exact Or.inr ⟨a, Or.inl rfl, h⟩
      · exact Or.inr ⟨y, Or.inr hy, h⟩
    · rintro (h | ⟨y, rfl | hy, h⟩)
      · exact Or.inl (Or.inl h)
      · exact Or.inl (Or.inr h)
      · exact Or.inr ⟨y, hy, h⟩

theorem npStd_lt_iff (xs : List ℚ) (c : ℚ) (hc : 0 < c) :
    npStd xs < ((c : ℚ) : ℝ) ↔ npVar xs < c ^ 2 := by
  rw [npStd, Real.sqrt_lt' (by exact_mod_cast hc)]
  constructor <;> intro h <;> exact_mod_cast h

theorem minStd_lt_iff (rows : List (List ℚ)) (c : ℚ) (hc : 0 < c) :
    listMinR (rows.map npStd) < ((c : ℚ) : ℝ) ↔ listMin (rows.map npVar) < c ^ 2 := by
  cases rows with
  | nil =>
    simp only [List.map_nil, listMinR, listMin]
    constructor
    · intro _
      positivity
    · intro _
      exact_mod_cast hc
  | cons r rs =>
    simp only [List.map_cons, listMinR, listMin]
    rw [foldl_min_lt_iff, foldl_min_lt_iff]
    constructor
    · rintro (h | ⟨y, hy, h⟩)
      · exact Or.inl ((npStd_lt_iff r c hc).mp h)
      · obtain ⟨l, hl, rfl⟩ := List.mem_map.mp hy
        exact Or.inr ⟨npVar l, List.mem_map_of_mem _ hl, (npStd_lt_iff l c hc).mp h⟩
    · rintro (h | ⟨y, hy, h⟩)
      · exact Or.inl ((npStd_lt_iff r c hc).mpr h)
      · obtain ⟨l, hl, rfl⟩ := List.mem_map.mp hy
        exact Or.inr ⟨npStd l, List.mem_map_of_mem _ hl, (npStd_lt_iff l c hc).mpr h⟩

theorem npVar_replicate (n : ℕ) (x : ℚ) (hn : n ≠ 0) :
    npVar (List.replicate n x) = 0 := by
  have hn' : ((n : ℚ)) ≠ 0 := by exact_mod_cast hn
  have hmean : npMean (List.replicate n x) = x := by
    rw [npMean, List.sum_replicate, List.length_replicate, nsmul_eq_mul]
    exact mul_div_cancel_left₀ x hn' 
  rw [npVar, hmean, List.map_replicate]
  simp

theorem npStd_replicate (n : ℕ) (x : ℚ) (hn : n ≠ 0) :
    npStd (List.replicate n x) = 0 := by
  rw [npStd, npVar_replicate n x hn]
  simp

theorem npVar_single (x : ℚ) : npVar [x] = 0 := by
  have hmean : npMean [x] = x := by
    simp [npMean]
  simp [npVar, hmean]

theorem mapM_eq_map {α β : Type} (f : α → Option β) (g : α → β) :
    ∀ l : List α, (∀ a ∈ l, f a = some (g a)) → l.mapM f = some (l.map g) := by
  intro l
  induction l with
  | nil => intro _; rfl
  | cons a as ih =>
    intro h
    rw [List.mapM_cons, h a (List.mem_cons_self a as), ih (fun b hb => h b (List.mem_cons_of_mem a hb))]
    rfl

theorem mapM_length {α β : Type} (f : α → Option β) :
    ∀ (l : List α) (ys : List β), l.mapM f = some ys → ys.length = l.length := by
  intro l
  induction l with
  | nil =>
    intro ys h
    simp only [List.mapM_nil, pure, Option.some.injEq] at h
    simp [← h]
  | cons a as ih =>
    intro ys h
    rw [List.mapM_cons] at h
    cases hfa : f a with
    | none => rw [hfa] at h; simp at h
    | some b =>
      rw [hfa] at h
      cases hrest : as.mapM f with
      | none => rw [hrest] at h; simp at h
      | some bs =>
        rw [hrest] at h
        simp only [Option.some_bind, pure, Option.some.injEq] at h
        cases h
        simp [ih bs hrest]

theorem bcast_of_len {f : ℚ → ℚ → ℚ} {xs ys : List ℚ} (h : xs.length = ys.length) :
    bcast f xs ys = some (List.zipWith f xs ys) := by
  rw [bcast, if_pos h]

theorem fillRow_of_len {w : ℕ} {xs : List ℚ} (h : xs.length = w) :
    fillRow w xs = some xs := by
  rw [fillRow, if_pos h]

/-! Helper lemmas about the Python modulo and the folding. -/

theorem pymod_mem (x : ℚ) : 0 ≤ pymod x 360 ∧ pymod x 360 < 360 := by
  have h1 : ((⌊x / 360⌋ : ℤ) : ℚ) ≤ x / 360 := Int.floor_le _
  have h2 : x / 360 < ((⌊x / 360⌋ : ℤ) : ℚ) + 1 := Int.lt_floor_add_one _
  have hx : 360 * (x / 360) = x := by field_simp
  unfold pymod
  constructor <;> nlinarith [h1, h2]

theorem pymod_eq_self {x : ℚ} (h0 : 0 ≤ x) (h1 : x < 360) : pymod x 360 = x := by
  have hf : ⌊x / 360⌋ = 0 := by
    rw [Int.floor_eq_zero_iff]
    exact Set.mem_Ico.mpr ⟨div_nonneg h0 (by norm_num), (div_lt_one (by norm_num)).mpr h1⟩
  rw [pymod, hf]
  push_cast
  ring

theorem pymod_eq_add {x : ℚ} (h0 : -360 ≤ x) (h1 : x < 0) : pymod x 360 = x + 360 := by
  have hf : ⌊x / 360⌋ = -1 := by
    rw [Int.floor_eq_iff]
    push_cast
    constructor
    · rw [le_div_iff₀ (by norm_num : (0:ℚ) < 360)]
      linarith
    · have : x / 360 < 0 := div_neg_of_neg_of_pos h1 (by norm_num)
      linarith
  rw [pymod, hf]
  push_cast
  ring

theorem pymod_add_360 (x : ℚ) : pymod (x + 360) 360 = pymod x 360 := by
  have h : (x + 360) / 360 = x / 360 + 1 := by ring
  rw [pymod, pymod, h, Int.floor_add_one]
  push_cast
  ring

theorem pymod_sub_360 (x : ℚ) : pymod (x - 360) 360 = pymod x 360 := by
  have h : (x - 360) / 360 = x / 360 - 1 := by ring
  rw [pymod, pymod, h]
  rw [show x / 360 - 1 = x / 360 + (-1 : ℤ) by push_cast; ring, Int.floor_add_int]
  push_cast
  ring

theorem foldCorrect_mem {y : ℚ} (h0 : 0 ≤ y) (h1 : y < 360) :
    ANGLE_MIN < foldCorrect y ∧ foldCorrect y ≤ ANGLE_MAX := by
  rw [foldCorrect, ANGLE_MIN, ANGLE_MAX] at *
  split_ifs with ha hb hb <;> constructor <;> linarith

/-- C3 counterexample: the fold sends the lower edge `-180` to `180`, which
lies outside `[-180, 180)`; in particular the fold is not the identity at
`angle_fold_min`. -/
theorem C3_fold_counterexample :
    foldAngle (-180 : ℚ) = 180 ∧ ¬ (foldAngle (-180 : ℚ) < 180) ∧
      foldAngle (-180 : ℚ) ≠ (-180 : ℚ) := by
  have h : foldAngle (-180 : ℚ) = 180 := by
    norm_num [foldAngle, pymod, foldCorrect, ANGLE_MIN, ANGLE_MAX]
  refine ⟨h, by rw [h]; norm_num, by rw [h]; norm_num⟩

/-- C3 (amended): the angle folding maps every rational into the half-open
interval `(angle_fold_min, angle_fold_max]` (default `(-180, 180]`), it is
the identity on that interval, and it is invariant under adding or
subtracting 360 from its argument. -/
theorem C3_fold_amended (x : ℚ) :
    (ANGLE_MIN < foldAngle x ∧ foldAngle x ≤ ANGLE_MAX) ∧
    (ANGLE_MIN < x → x ≤ ANGLE_MAX → foldAngle x = x) ∧
    foldAngle (x + 360) = foldAngle x ∧ foldAngle (x - 360) = foldAngle x := by
  obtain ⟨h0, h1⟩ := pymod_mem x
  refine ⟨foldCorrect_mem h0 h1, ?_, ?_, ?_⟩
  · intro hmin hmax
    rw [ANGLE_MIN] at hmin
    rw [ANGLE_MAX] at hmax
    rcases le_or_lt 0 x with hx | hx
    · rw [foldAngle, pymod_eq_self hx (by linarith), foldCorrect, ANGLE_MIN, ANGLE_MAX]
      rw [if_neg (by linarith), if_neg (by linarith)]
      ring
    · rw [foldAngle, pymod_eq_add (by linarith) hx, foldCorrect, ANGLE_MIN, ANGLE_MAX]
      rw [if_neg (by linarith), if_pos (by linarith)]
      ring
  · rw [foldAngle, foldAngle, pymod_add_360]
  · rw [foldAngle, foldAngle, pymod_sub_360]

/-! Helper lemmas for the rational approximator. -/

theorem limloop_den_bounds (maxd : ℕ) (n d p0 q0 p1 q1 : ℤ)
    (hq0 : 0 ≤ q0 ∧ q0 ≤ (maxd : ℤ)) (hq1 : 0 ≤ q1 ∧ q1 ≤ (maxd : ℤ))
    (hn : 0 ≤ n) (hd : 0 ≤ d) :
    (0 ≤ (limloop maxd n d p0 q0 p1 q1).2.1 ∧
      (limloop maxd n d p0 q0 p1 q1).2.1 ≤ (maxd : ℤ)) ∧
    (0 ≤ (limloop maxd n d p0 q0 p1 q1).2.2.2 ∧
      (limloop maxd n d p0 q0 p1 q1).2.2.2 ≤ (maxd : ℤ)) := by
  induction n, d, p0, q0, p1, q1 using limloop.induct maxd with
  | case1 n d p0 q0 p1 q1 h hgt =>
    rw [limloop, dif_pos h, if_pos hgt]
    exact ⟨hq0, hq1⟩
  | case2 n d p0 q0 p1 q1 h hgt ih =>
    rw [limloop, dif_pos h, if_neg hgt]
    push_neg at hgt
    have ha : 0 ≤ n.fdiv d := Int.fdiv_nonneg hn (le_of_lt h)
    refine ih ⟨hq1.1, hq1.2⟩ ⟨add_nonneg hq0.1 (mul_nonneg ha hq1.1), hgt⟩ (le_of_lt h) ?_
    rw [Int.fdiv_eq_ediv _ (le_of_lt h)]
    have h1 : n - n / d * d = n % d := by rw [Int.emod_def]; ring
    rw [h1]
    exact Int.emod_nonneg n (by omega)
  | case3 n d p0 q0 p1 q1 h =>
    rw [limloop, dif_neg h]
    exact ⟨hq0, hq1⟩

theorem den_div_le (a b : ℤ) (m : ℕ) (h1 : 1 ≤ m) (h0 : 0 ≤ b) (hb : b ≤ (m : ℤ)) :
    (((a : ℚ) / (b : ℚ)).den : ℤ) ≤ (m : ℤ) := by
  rcases eq_or_lt_of_le h0 with h | h
  · have hb0 : ((b : ℤ) : ℚ) = 0 := by rw [← h]; norm_num
    rw [hb0, div_zero]
    have : ((0 : ℚ)).den = 1 := rfl
    rw [this]
    exact_mod_cast h1
  · have hdvd : (((a : ℚ) / (b : ℚ)).den : ℤ) ∣ b := by
      rw [← Rat.divInt_eq_div]
      exact Rat.den_dvd a b
    exact le_trans (Int.le_of_dvd h hdvd) hb

theorem pickBound_den_le (x : ℚ) (maxd : ℕ) (r : ℤ × ℤ × ℤ × ℤ)
    (h1 : 1 ≤ maxd) (hq0 : 0 ≤ r.2.1 ∧ r.2.1 ≤ (maxd : ℤ))
    (hq1 : 0 ≤ r.2.2.2 ∧ r.2.2.2 ≤ (maxd : ℤ)) :
    ((pickBound x maxd r).den : ℤ) ≤ (maxd : ℤ) := by
  have hb1 : 0 ≤ r.2.1 + (((maxd : ℤ) - r.2.1).fdiv r.2.2.2) * r.2.2.2 ∧
      r.2.1 + (((maxd : ℤ) - r.2.1).fdiv r.2.2.2) * r.2.2.2 ≤ (maxd : ℤ) := by
    rcases eq_or_lt_of_le hq1.1 with hz | hz
    · rw [← hz, Int.fdiv_zero]
      simpa using hq0
    · have hk0 : 0 ≤ ((maxd : ℤ) - r.2.1).fdiv r.2.2.2 :=
        Int.fdiv_nonneg (by omega) (le_of_lt hz)
      have hkq : (((maxd : ℤ) - r.2.1).fdiv r.2.2.2) * r.2.2.2 ≤ (maxd : ℤ) - r.2.1 := by
        rw [Int.fdiv_eq_ediv _ (le_of_lt hz)]
        exact Int.ediv_mul_le _ (by omega)
      constructor
      · exact add_nonneg hq0.1 (mul_nonneg hk0 hq1.1)
      · omega
  rw [pickBound]
  split_ifs with h
  · exact den_div_le _ _ maxd h1 hq1.1 hq1.2
  · exact den_div_le _ _ maxd h1 hb1.1 hb1.2

theorem num_den_div (p q : ℕ) (hq : 0 < q) (hcop : Nat.Coprime p q) :
    ((p : ℚ) / (q : ℚ)).num = (p : ℤ) ∧ ((p : ℚ) / (q : ℚ)).den = q := by
  have hq0 : q ≠ 0 := Nat.pos_iff_ne_zero.mp hq
  have hcop' : (p : ℤ).natAbs.Coprime q := by
    simpa [Int.natAbs_ofNat] using hcop
  have hx : ((p : ℚ) / (q : ℚ)) = (⟨(p : ℤ), q, hq0, hcop'⟩ : ℚ) := by
    rw [Rat.mk'_eq_divInt, Rat.divInt_eq_div]
    push_cast
    ring
  rw [hx]
  exact ⟨rfl, rfl⟩

/-- C5: the rational approximator called at line 267, modelled by CPython's
`Fraction.limit_denominator` algorithm.  Exactness: on a reduced fraction
whose denominator already satisfies the bound (in particular `p/q` with
`gcd p q = 1` and `q ≤ max_denominator`) the value is returned unchanged.
Bound respect: for every positive input the denominator of the result never
exceeds `max_denominator`. -/
theorem C5_approximator :
    (∀ (x : ℚ) (maxd : ℕ), 1 ≤ maxd → 0 < x → x.den ≤ maxd →
       limit_denominator x maxd = some x) ∧
    (∀ (p q maxd : ℕ), 1 ≤ maxd → 0 < p → 0 < q → Nat.Coprime p q → q ≤ maxd →
       limit_denominator ((p : ℚ) / (q : ℚ)) maxd = some ((p : ℚ) / (q : ℚ)) ∧
       ((p : ℚ) / (q : ℚ)).num = (p : ℤ) ∧ ((p : ℚ) / (q : ℚ)).den = q) ∧
    (∀ (x : ℚ) (maxd : ℕ) (y : ℚ), 1 ≤ maxd → 0 < x →
       limit_denominator x maxd = some y → y.den ≤ maxd) := by
  have exact1 : ∀ (x : ℚ) (maxd : ℕ), 1 ≤ maxd → x.den ≤ maxd →
      limit_denominator x maxd = some x := by
    intro x maxd hm hden
    rw [limit_denominator, if_neg (by omega), if_pos hden]
  refine ⟨fun x maxd hm _ hden => exact1 x maxd hm hden, ?_, ?_⟩
  · intro p q maxd hm hp hq hcop hqm
    obtain ⟨hnum, hden⟩ := num_den_div p q hq hcop
    exact ⟨exact1 _ maxd hm (by rw [hden]; exact hqm), hnum, hden⟩
  · intro x maxd y hm hx hy
    rw [limit_denominator, if_neg (by omega)] at hy
    by_cases hden : x.den ≤ maxd
    · rw [if_pos hden] at hy
      cases Option.some.inj hy
      exact hden
    · rw [if_neg hden] at hy
      have hinv := limloop_den_bounds maxd x.num (x.den : ℤ) 0 1 1 0
        ⟨by norm_num, by exact_mod_cast hm⟩ ⟨le_refl 0, by positivity⟩
        (le_of_lt (Rat.num_pos.mpr hx)) (by positivity)
      have hd := pickBound_den_le x maxd (limloop maxd x.num (x.den : ℤ) 0 1 1 0)
        hm hinv.1 hinv.2
      cases Option.some.inj hy
      exact_mod_cast hd

/-- C5 witness: the approximator at `3/2` with bound 30 returns `3/2`, and
the returned denominator respects the bound. -/
theorem C5_witness :
    limit_denominator ((3 : ℚ) / (2 : ℚ)) 30 = some ((3 : ℚ) / (2 : ℚ)) ∧
      ((3 : ℚ) / (2 : ℚ)).den ≤ 30 := by
  have h := C5_approximator.2.1 3 2 30 (by norm_num) (by norm_num) (by norm_num)
    (by norm_num [Nat.coprime_iff_gcd_eq_one]) (by norm_num)
  exact ⟨h.1, C5_approximator.2.2 ((3 : ℚ) / (2 : ℚ)) 30 ((3 : ℚ) / (2 : ℚ))
    (by norm_num) (by norm_num) h.1⟩

/-- C3 witness: the amended statement at the concrete angles 90 and 250. -/
theorem C3_fold_witness :
    foldAngle (90 : ℚ) = 90 ∧ foldAngle (90 + 360 : ℚ) = foldAngle (90 : ℚ) ∧
      ANGLE_MIN < foldAngle (250 : ℚ) ∧ foldAngle (250 : ℚ) ≤ ANGLE_MAX := by
  refine ⟨(C3_fold_amended 90).2.1 ?_ ?_, (C3_fold_amended 90).2.2.1,
    ((C3_fold_amended 250).1).1, ((C3_fold_amended 250).1).2⟩
  · rw [ANGLE_MIN]; norm_num
  · rw [ANGLE_MAX]; norm_num

/-! Helper lemmas for the acceptance bookkeeping. -/

theorem num_three_halves : ((3 : ℚ) / 2).num = 3 := by norm_num

theorem num_nine_eighths : ((9 : ℚ) / 8).num = 9 := by norm_num

theorem acceptStep_none (ex : List ℚ) (res : ℚ) :
    acceptStep (none, ex) res = (some res, ex) := rfl

theorem acceptStep_lt (ex : List ℚ) (cur res : ℚ) (h : res.num < cur.num) :
    acceptStep (some cur, ex) res = (some res, ex ++ [cur]) := by
  show (if res.num < cur.num then _ else _) = _
  rw [if_pos h]

theorem acceptStep_ge (ex : List ℚ) (cur res : ℚ) (h : cur.num ≤ res.num) :
    acceptStep (some cur, ex) res = (some cur, ex ++ [res]) := by
  show (if res.num < cur.num then _ else _) = _
  rw [if_neg (not_lt.mpr h)]

theorem acceptRun (cs : List ℚ) :
    ∀ (cur : ℚ) (ex : List ℚ),
      ∃ c, (List.foldl acceptStep (some cur, ex) cs).1 = some c ∧
        c.num ≤ cur.num ∧ (∀ d ∈ cs, c.num ≤ d.num) ∧
        (c ::ₘ ((List.foldl acceptStep (some cur, ex) cs).2 : Multiset ℚ)) =
          (ex : Multiset ℚ) + (cur ::ₘ (cs : Multiset ℚ)) := by
  induction cs with
  | nil =>
    intro cur ex
    refine ⟨cur, rfl, le_refl _, by simp, ?_⟩
    simp only [List.foldl_nil, Multiset.coe_nil, Multiset.add_cons, add_zero]
  | cons d rest ih =>
    intro cur ex
    rw [List.foldl_cons]
    by_cases hlt : d.num < cur.num
    · rw [acceptStep_lt ex cur d hlt]
      obtain ⟨c, h1, h2, h3, h4⟩ := ih d (ex ++ [cur])
      refine ⟨c, h1, le_trans h2 (le_of_lt hlt), ?_, ?_⟩
      · intro e he
        rcases List.mem_cons.mp he with rfl | he'
        · exact h2
        · exact h3 e he'
      · rw [h4]
        simp only [← Multiset.coe_add, ← Multiset.cons_coe, Multiset.coe_nil,
          Multiset.cons_add, Multiset.add_cons, zero_add, add_zero]
        exact Multiset.cons_swap d cur _
    · rw [acceptStep_ge ex cur d (not_lt.mp hlt)]
      obtain ⟨c, h1, h2, h3, h4⟩ := ih cur (ex ++ [d])
      refine ⟨c, h1, h2, ?_, ?_⟩
      · intro e he
        rcases List.mem_cons.mp he with rfl | he'
        · exact le_trans h2 (not_lt.mp hlt)
        · exact h3 e he'
      · rw [h4]
        simp only [← Multiset.coe_add, ← Multiset.cons_coe, Multiset.coe_nil,
          Multiset.cons_add, Multiset.add_cons, zero_add, add_zero]

/-- C4 counterexample: all three candidates 3:2, 9:8, 2:1 accepted in this
discovery order leave the secondary list `[9/8, 3/2]`: the displaced primary
3/2 is appended after the later-discovered 9/8, so the secondary list does
not preserve discovery order (it is not a sublist of the acceptance
sequence). -/
theorem C4_counterexample :
    acceptLoop [(3 : ℚ) / 2, (9 : ℚ) / 8, 2] = (some 2, [(9 : ℚ) / 8, (3 : ℚ) / 2]) ∧
      ¬ List.Sublist [(9 : ℚ) / 8, (3 : ℚ) / 2] [(3 : ℚ) / 2, (9 : ℚ) / 8, 2] := by
  have h2 : ((2 : ℚ)).num = 2 := by norm_num
  constructor
  · show List.foldl acceptStep (none, []) _ = _
    rw [List.foldl_cons, List.foldl_cons, List.foldl_cons, List.foldl_nil]
    rw [acceptStep_none]
    rw [acceptStep_ge [] ((3 : ℚ) / 2) ((9 : ℚ) / 8)
      (by rw [num_three_halves, num_nine_eighths]; norm_num)]
    rw [acceptStep_lt ([] ++ [(9 : ℚ) / 8]) ((3 : ℚ) / 2) 2
      (by rw [num_three_halves, h2]; norm_num)]
    simp
  · intro hsub
    have hmap := hsub.map Rat.num
    simp only [List.map_cons, List.map_nil, num_three_halves, num_nine_eighths, h2] at hmap
    exact absurd hmap (by decide)

/-- C4 (amended): on acceptance, a first candidate becomes primary; later the
strictly smaller numerator becomes or remains primary and the other candidate
is appended at the tail of the secondary list (equal numerators keep the
existing primary).  Consequently the final primary has the smallest numerator
among accepted candidates and the secondary list holds exactly the other
accepted candidates — but a displaced primary enters the list at displacement
time, so the list records order of entry, not discovery order. -/
theorem C4_accept_amended :
    (∀ (ex : List ℚ) (res : ℚ), acceptStep (none, ex) res = (some res, ex)) ∧
    (∀ (ex : List ℚ) (cur res : ℚ), res.num < cur.num →
       acceptStep (some cur, ex) res = (some res, ex ++ [cur])) ∧
    (∀ (ex : List ℚ) (cur res : ℚ), cur.num ≤ res.num →
       acceptStep (some cur, ex) res = (some cur, ex ++ [res])) ∧
    (∀ (c0 : ℚ) (rest : List ℚ),
       ∃ c, (acceptLoop (c0 :: rest)).1 = some c ∧
         (∀ d ∈ c0 :: rest, c.num ≤ d.num) ∧
         c ::ₘ ((acceptLoop (c0 :: rest)).2 : Multiset ℚ) =
           ((c0 :: rest : List ℚ) : Multiset ℚ)) := by
  refine ⟨acceptStep_none, acceptStep_lt, acceptStep_ge, ?_⟩
  intro c0 rest
  obtain ⟨c, h1, h2, h3, h4⟩ := acceptRun rest c0 []
  have hloop : acceptLoop (c0 :: rest) = List.foldl acceptStep (some c0, []) rest := by
    rw [acceptLoop, List.foldl_cons, acceptStep_none]
  refine ⟨c, by rw [hloop]; exact h1, ?_, ?_⟩
  · intro d hd
    rcases List.mem_cons.mp hd with rfl | hd'
    · exact h2
    · exact h3 d hd'
  · rw [hloop, h4]
    simp only [Multiset.coe_nil, zero_add, Multiset.cons_coe]

/-- C4 witness: the three update rules at concrete states (a 2:1 candidate
displaces a 3:2 primary; a 9:8 candidate does not; a first acceptance fills
an empty primary). -/
theorem C4_witness :
    acceptStep (some ((3 : ℚ) / 2), []) 2 = (some 2, [(3 : ℚ) / 2]) ∧
      acceptStep (some ((3 : ℚ) / 2), []) ((9 : ℚ) / 8) = (some ((3 : ℚ) / 2), [(9 : ℚ) / 8]) ∧
      acceptStep (none, []) ((3 : ℚ) / 2) = (some ((3 : ℚ) / 2), []) := by
  refine ⟨?_, ?_, C4_accept_amended.1 [] ((3 : ℚ) / 2)⟩
  · have h := C4_accept_amended.2.1 [] ((3 : ℚ) / 2) 2
      (by rw [num_three_halves]; norm_num)
    simpa using h
  · have h := C4_accept_amended.2.2.1 [] ((3 : ℚ) / 2) ((9 : ℚ) / 8)
      (by rw [num_three_halves, num_nine_eighths]; norm_num)
    simpa using h

/-! Helper lemmas for the candidate loop. -/

theorem candStep_eq (i o : List OrbRec) (st : LoopState) (res : ℚ)
    (rows : List (List ℚ)) (dl : List ℚ)
    (hphi : phiFold i o res = some rows) (hdl : delta_longitude i o = some dl) :
    candStep i o st res = some
      ⟨(if libration rows then acceptStep (st.prim, st.extra) res
          else (st.prim, st.extra)).1,
        (if libration rows then acceptStep (st.prim, st.extra) res
          else (st.prim, st.extra)).2,
        if npVar dl < STD_THRESHOLD ^ 2 then true else st.flag⟩ := by
  rw [candStep, hphi, hdl]
  rfl

theorem candStep_some_elim {i o : List OrbRec} {st st' : LoopState} {res : ℚ}
    (h : candStep i o st res = some st') :
    ∃ rows dl, phiFold i o res = some rows ∧ delta_longitude i o = some dl ∧
      st' = ⟨(if libration rows then acceptStep (st.prim, st.extra) res
          else (st.prim, st.extra)).1,
        (if libration rows then acceptStep (st.prim, st.extra) res
          else (st.prim, st.extra)).2,
        if npVar dl < STD_THRESHOLD ^ 2 then true else st.flag⟩ := by
  cases hphi : phiFold i o res with
  | none => rw [candStep, hphi] at h; exact absurd h (by simp)
  | some rows =>
    cases hdl : delta_longitude i o with
    | none => rw [candStep, hphi, hdl] at h; exact absurd h (by simp)
    | some dl =>
      rw [candStep_eq i o st res rows dl hphi hdl] at h
      exact ⟨rows, dl, rfl, rfl, (Option.some.inj h).symm⟩

theorem nodup_append_one (l : List ℚ) (a : ℚ) (h1 : l.Nodup) (h2 : a ∉ l) :
    (l ++ [a]).Nodup := by
  rw [List.nodup_append]
  exact ⟨h1, List.nodup_singleton a,
    fun x hx hmem => h2 (by rwa [List.mem_singleton.mp hmem] at hx)⟩

theorem pairInv (i o : List OrbRec) :
    ∀ (cs : List ℚ) (st st' : LoopState), cs.Nodup →
      st.extra.Nodup → (∀ c, st.prim = some c → c ∉ st.extra) →
      (∀ c ∈ cs, c ∉ st.extra ∧ st.prim ≠ some c) →
      List.foldlM (candStep i o) st cs = some st' →
      st'.extra.Nodup ∧ ∀ c, st'.prim = some c → c ∉ st'.extra := by
  intro cs
  induction cs with
  | nil =>
    intro st st' _ hnd hpr _ hfold
    rw [List.foldlM_nil] at hfold
    cases Option.some.inj hfold
    exact ⟨hnd, hpr⟩
  | cons c cs' ih =>
    intro st st' hndcs hnd hpr hfresh hfold
    rw [List.foldlM_cons] at hfold
    cases hstep : candStep i o st c with
    | none => rw [hstep] at hfold; exact Option.noConfusion hfold
    | some st1 =>
      rw [hstep] at hfold
      have hfold2 : List.foldlM (candStep i o) st1 cs' = some st' := hfold
      obtain ⟨rows, dl, _, _, hst1⟩ := candStep_some_elim hstep
      have hfc := hfresh c (List.mem_cons_self c cs')
      have hccs : c ∉ cs' := (List.nodup_cons.mp hndcs).1
      have hnd' : cs'.Nodup := (List.nodup_cons.mp hndcs).2
      have hfreshtail : ∀ e ∈ cs', e ∉ st.extra ∧ st.prim ≠ some e :=
        fun e he => hfresh e (List.mem_cons_of_mem c he)
      by_cases hlib : libration rows = true
      · rw [if_pos hlib] at hst1
        rcases hp : st.prim with _ | cur
        · rw [hp, acceptStep_none] at hst1
          have hpr1 : st1.prim = some c := by rw [hst1]
          have hex : st1.extra = st.extra := by rw [hst1]
          refine ih st1 st' hnd' (by rw [hex]; exact hnd) ?_ ?_ hfold2
          · intro e he
            rw [hpr1] at he
            cases Option.some.inj he
            rw [hex]
            exact hfc.1
          · intro e he
            refine ⟨by rw [hex]; exact (hfreshtail e he).1, fun heq => ?_⟩
            rw [hpr1] at heq
            cases Option.some.inj heq
            exact hccs he
        · have hcur : cur ≠ c := fun h => hfc.2 (by rw [hp, h])
          have hcurex : cur ∉ st.extra := hpr cur hp
          by_cases hnum : c.num < cur.num
          · rw [hp, acceptStep_lt st.extra cur c hnum] at hst1
            have hpr1 : st1.prim = some c := by rw [hst1]
            have hex : st1.extra = st.extra ++ [cur] := by rw [hst1]
            refine ih st1 st' hnd'
              (by rw [hex]; exact nodup_append_one st.extra cur hnd hcurex) ?_ ?_ hfold2
            · intro e he
              rw [hpr1] at he
              cases Option.some.inj he
              rw [hex, List.mem_append]
              rintro (h | h)
              · exact hfc.1 h
              · exact hcur (List.mem_singleton.mp h).symm
            · intro e he
              refine ⟨?_, fun heq => ?_⟩
              · rw [hex, List.mem_append]
                rintro (h | h)
                · exact (hfreshtail e he).1 h
                · exact (hfreshtail e he).2 (by rw [hp, (List.mem_singleton.mp h)])
              · rw [hpr1] at heq
                cases Option.some.inj heq
                exact hccs he
          · rw [hp, acceptStep_ge st.extra cur c (not_lt.mp hnum)] at hst1
            have hpr1 : st1.prim = some cur := by rw [hst1]
            have hex : st1.extra = st.extra ++ [c] := by rw [hst1]
            refine ih st1 st' hnd'
              (by rw [hex]; exact nodup_append_one st.extra c hnd hfc.1) ?_ ?_ hfold2
            · intro e he
              rw [hpr1] at he
              cases Option.some.inj he
              rw [hex, List.mem_append]
              rintro (h | h)
              · exact hcurex h
              · exact hcur (List.mem_singleton.mp h)
            · intro e he
              refine ⟨?_, fun heq => ?_⟩
              · rw [hex, List.mem_append]
                rintro (h | h)
                · exact (hfreshtail e he).1 h
                · exact hccs (by rwa [List.mem_singleton.mp h] at he)
              · rw [hpr1] at heq
                cases Option.some.inj heq
                exact (hfreshtail cur he).2 hp
      · rw [if_neg hlib] at hst1
        have hpr1 : st1.prim = st.prim := by rw [hst1]
        have hex : st1.extra = st.extra := by rw [hst1]
        refine ih st1 st' hnd' (by rw [hex]; exact hnd) ?_ ?_ hfold2
        · intro e he
          rw [hex]
          exact hpr e (by rw [← hpr1]; exact he)
        · intro e he
          exact ⟨by rw [hex]; exact (hfreshtail e he).1,
            by rw [hpr1]; exact (hfreshtail e he).2⟩

/-- C9: the candidate list fed to the acceptance loop is deduplicated
(line 272), and on any completed pair the secondary list has no duplicate
commensurability and never contains the final primary. -/
theorem C9_secondary_invariants :
    (∀ (ratios : List ℚ) (maxd : ℕ) (l : List ℚ),
       resonances ratios maxd = some l → l.Nodup) ∧
    (∀ (inner outer : List OrbRec) (cs : List ℚ) (st : LoopState), cs.Nodup →
       pairLoop inner outer cs = some st →
       st.extra.Nodup ∧ ∀ c, st.prim = some c → c ∉ st.extra) := by
  constructor
  · intro ratios maxd l h
    rw [resonances] at h
    obtain ⟨l0, _, rfl⟩ := Option.map_eq_some'.mp h
    exact List.nodup_dedup l0
  · intro inner outer cs st hnd h
    exact pairInv inner outer cs ⟨none, [], false⟩ st hnd (by simp) (by simp) (by simp) h

/-! Single-sample evaluation of the resonant-angle matrix. -/

theorem phiRows_single (r1 r2 : OrbRec) (res : ℚ) :
    phiRows [r1] [r2] res = some ((List.range (resOrder res + 1)).map
      (fun (i : ℕ) => List.replicate NB_LAST_POINTS
        ((res.num : ℚ) * (r2.M + (r2.g + r2.n)) - (res.den : ℚ) * (r1.M + (r1.g + r1.n)) -
          (i : ℚ) * (r1.g + r1.n) - (((resOrder res - i : ℕ) : ℤ) : ℚ) * (r2.g + r2.n)))) := by
  rw [phiRows]
  rw [bcast_of_len (by simp [mean_longitude])]
  simp only [mean_longitude, long_of_peri, List.map_cons, List.map_nil, List.zipWith_cons_cons,
    List.zipWith_nil_right, Option.some_bind]
  apply mapM_eq_map
  intro i hi
  rfl

theorem phiFold_single (r1 r2 : OrbRec) (res : ℚ) :
    phiFold [r1] [r2] res = some ((List.range (resOrder res + 1)).map
      (fun (i : ℕ) => List.replicate NB_LAST_POINTS (foldAngle
        ((res.num : ℚ) * (r2.M + (r2.g + r2.n)) - (res.den : ℚ) * (r1.M + (r1.g + r1.n)) -
          (i : ℚ) * (r1.g + r1.n) - (((resOrder res - i : ℕ) : ℤ) : ℚ) * (r2.g + r2.n))))) := by
  rw [phiFold, phiRows_single, Option.map_some']
  simp [List.map_map, List.map_replicate, Function.comp]

theorem libration_of_const_rows (g : ℕ → ℚ) (q : ℕ) :
    libration ((List.range (q + 1)).map
      (fun i => List.replicate NB_LAST_POINTS (g i))) = true := by
  rw [libration, decide_eq_true_eq, List.map_map]
  have hmap : (List.range (q + 1)).map (npVar ∘ fun i => List.replicate NB_LAST_POINTS (g i)) =
      (List.range (q + 1)).map (fun _ => (0 : ℚ)) := by
    apply List.map_congr_left
    intro a _
    exact npVar_replicate _ _ (by norm_num [NB_LAST_POINTS])
  rw [hmap, List.range_succ_eq_map, List.map_cons]
  show List.foldl min (0 : ℚ) _ < _
  rw [foldl_min_lt_iff]
  left
  rw [STD_THRESHOLD]
  norm_num

theorem minR_const_rows (g : ℕ → ℚ) (q : ℕ) :
    listMinR (((List.range (q + 1)).map
      (fun i => List.replicate NB_LAST_POINTS (g i))).map npStd) <
      ((STD_THRESHOLD : ℚ) : ℝ) := by
  rw [List.map_map]
  have hmap : (List.range (q + 1)).map (npStd ∘ fun i => List.replicate NB_LAST_POINTS (g i)) =
      (List.range (q + 1)).map (fun _ => (0 : ℝ)) := by
    apply List.map_congr_left
    intro a _
    exact npStd_replicate _ _ (by norm_num [NB_LAST_POINTS])
  rw [hmap, List.range_succ_eq_map, List.map_cons]
  show List.foldl min (0 : ℝ) _ < _
  rw [foldl_min_lt_iff]
  left
  rw [STD_THRESHOLD]
  norm_num

/-- C1: a candidate is accepted exactly when the minimum, over the folded
resonant-angle series, of the population standard deviation lies strictly
below the threshold of 40 degrees; and when each track's trailing window
holds exactly one sample, every series is constant across the broadcast row
(standard deviation 0), so every candidate passes the test. -/
theorem C1_accept_iff_min_std :
    (∀ (inner outer : List OrbRec) (res : ℚ) (rows : List (List ℚ)),
       phiFold inner outer res = some rows →
       (candAccept inner outer res = some true ↔
         listMinR (rows.map npStd) < ((STD_THRESHOLD : ℚ) : ℝ))) ∧
    (∀ (r1 r2 : OrbRec) (res : ℚ), candAccept [r1] [r2] res = some true) := by
  constructor
  · intro inner outer res rows h
    rw [candAccept, h, Option.map_some', Option.some_inj]
    rw [libration, decide_eq_true_eq]
    exact (minStd_lt_iff rows STD_THRESHOLD (by rw [STD_THRESHOLD]; norm_num)).symm
  · intro r1 r2 res
    rw [candAccept, phiFold_single, Option.map_some', Option.some_inj]
    exact libration_of_const_rows _ _

/-- C1 witness: with all-zero single-sample tracks both a 2:1 and a 3:2
candidate are accepted; the first is obtained through the min-std
characterisation, the second through the single-sample clause. -/
theorem C1_witness :
    candAccept track1 track1 2 = some true ∧
      candAccept track1 track1 ((3 : ℚ) / 2) = some true := by
  constructor
  · exact (C1_accept_iff_min_std.1 track1 track1 2 _ (phiFold_single zRec zRec 2)).mpr
      (minR_const_rows _ _)
  · exact C1_accept_iff_min_std.2 zRec zRec ((3 : ℚ) / 2)

/-! Flag bookkeeping of the candidate loop. -/

theorem flagStep {i o : List OrbRec} {st st1 : LoopState} {res : ℚ}
    (h : candStep i o st res = some st1) :
    ∃ dl, delta_longitude i o = some dl ∧
      st1.flag = (st.flag || decide (npVar dl < STD_THRESHOLD ^ 2)) := by
  obtain ⟨rows, dl, _, hdl, hst1⟩ := candStep_some_elim h
  refine ⟨dl, hdl, ?_⟩
  rw [hst1]
  by_cases hc : npVar dl < STD_THRESHOLD ^ 2
  · simp [hc]
  · simp [hc]

theorem flagFold (i o : List OrbRec) :
    ∀ (cs : List ℚ) (c0 : ℚ) (st st' : LoopState),
      List.foldlM (candStep i o) st (c0 :: cs) = some st' →
      ∃ dl, delta_longitude i o = some dl ∧
        st'.flag = (st.flag || decide (npVar dl < STD_THRESHOLD ^ 2)) := by
  intro cs
  induction cs with
  | nil =>
    intro c0 st st' h
    rw [List.foldlM_cons] at h
    cases hstep : candStep i o st c0 with
    | none => rw [hstep] at h; exact Option.noConfusion h
    | some st1 =>
      rw [hstep] at h
      have h2 : List.foldlM (candStep i o) st1 [] = some st' := h
      rw [List.foldlM_nil] at h2
      cases Option.some.inj h2
      exact flagStep hstep
  | cons c1 cs' ih =>
    intro c0 st st' h
    rw [List.foldlM_cons] at h
    cases hstep : candStep i o st c0 with
    | none => rw [hstep] at h; exact Option.noConfusion h
    | some st1 =>
      rw [hstep] at h
      have h2 : List.foldlM (candStep i o) st1 (c1 :: cs') = some st' := h
      obtain ⟨dl, hdl, hflag⟩ := ih c1 st1 st' h2
      obtain ⟨dl2, hdl2, hflag2⟩ := flagStep hstep
      have heq : dl2 = dl := Option.some.inj (hdl2.symm.trans hdl)
      subst heq
      refine ⟨dl2, hdl, ?_⟩
      rw [hflag, hflag2, Bool.or_assoc, Bool.or_self]

/-- C7: after any completed candidate loop with at least one candidate, the
apsidal flag is true exactly when the standard deviation of the folded
pericentre-longitude difference is below the threshold, and the flag does
not depend on which candidates were scanned or accepted. -/
theorem C7_apsidal_flag :
    (∀ (inner outer : List OrbRec) (cs : List ℚ) (st : LoopState) (dl : List ℚ),
       cs ≠ [] → pairLoop inner outer cs = some st →
       delta_longitude inner outer = some dl →
       (st.flag = true ↔ npStd dl < ((STD_THRESHOLD : ℚ) : ℝ))) ∧
    (∀ (inner outer : List OrbRec) (cs1 cs2 : List ℚ) (st1 st2 : LoopState),
       cs1 ≠ [] → cs2 ≠ [] → pairLoop inner outer cs1 = some st1 →
       pairLoop inner outer cs2 = some st2 → st1.flag = st2.flag) := by
  have key : ∀ (inner outer : List OrbRec) (cs : List ℚ) (st : LoopState) (dl : List ℚ),
      cs ≠ [] → pairLoop inner outer cs = some st →
      delta_longitude inner outer = some dl →
      (st.flag = true ↔ npVar dl < STD_THRESHOLD ^ 2) := by
    intro inner outer cs st dl hne hloop hdl
    cases cs with
    | nil => exact absurd rfl hne
    | cons c0 cs' =>
      obtain ⟨dl2, hdl2, hflag⟩ := flagFold inner outer cs' c0 ⟨none, [], false⟩ st hloop
      have heq : dl2 = dl := Option.some.inj (hdl2.symm.trans hdl)
      subst heq
      rw [hflag]
      simp [decide_eq_true_eq]
  constructor
  · intro inner outer cs st dl hne hloop hdl
    rw [key inner outer cs st dl hne hloop hdl]
    exact ((npStd_lt_iff dl STD_THRESHOLD (by rw [STD_THRESHOLD]; norm_num))).symm
  · intro inner outer cs1 cs2 st1 st2 h1 h2 hl1 hl2
    cases cs1 with
    | nil => exact absurd rfl h1
    | cons c0 cs1' =>
      obtain ⟨dl, hdl, _⟩ := flagFold inner outer cs1' c0 ⟨none, [], false⟩ st1 hl1
      have k1 := key inner outer (c0 :: cs1') st1 dl h1 hl1 hdl
      have k2 := key inner outer cs2 st2 dl h2 hl2 hdl
      by_cases hc : npVar dl < STD_THRESHOLD ^ 2
      · rw [k1.mpr hc, k2.mpr hc]
      · have n1 : st1.flag = false := by
          cases hb1 : st1.flag
          · rfl
          · exact absurd (k1.mp hb1) hc
        have n2 : st2.flag = false := by
          cases hb2 : st2.flag
          · rfl
          · exact absurd (k2.mp hb2) hc
        rw [n1, n2]

/-- Concrete complete run: all-zero single-sample tracks with the single
candidate 2:1 accept it as primary and set the apsidal flag. -/
theorem pairLoop_track1 : pairLoop track1 track1 [2] = some ⟨some 2, [], true⟩ := by
  rw [pairLoop, List.foldlM_cons,
    candStep_eq track1 track1 ⟨none, [], false⟩ 2 _ _ (phiFold_single zRec zRec 2)
      (show delta_longitude track1 track1 =
        some [foldAngle (zRec.g + zRec.n - (zRec.g + zRec.n))] from rfl)]
  show List.foldlM (candStep track1 track1) _ [] = _
  rw [List.foldlM_nil]
  rw [libration_of_const_rows, if_pos rfl, acceptStep_none, npVar_single,
    if_pos (show (0 : ℚ) < STD_THRESHOLD ^ 2 by rw [STD_THRESHOLD]; norm_num)]
  rfl

/-- C7 witness: in the concrete run above the flag is set, so by the main
theorem the folded pericentre-difference standard deviation of the
single-sample tracks lies below 40 degrees. -/
theorem C7_witness :
    npStd [foldAngle (zRec.g + zRec.n - (zRec.g + zRec.n))] < ((STD_THRESHOLD : ℚ) : ℝ) := by
  exact (C7_apsidal_flag.1 track1 track1 [2] ⟨some 2, [], true⟩ _
    (by simp) pairLoop_track1 rfl).mp rfl

/-- C9 witness: the concrete completed pair has a duplicate-free secondary
list that does not contain the primary, and the deduplicated candidate list
of a concrete sampling is duplicate-free. -/
theorem C9_witness :
    (([] : List ℚ).Nodup ∧ (2 : ℚ) ∉ ([] : List ℚ)) ∧ [(3 : ℚ) / 2].Nodup := by
  constructor
  · have h := C9_secondary_invariants.2 track1 track1 [2] ⟨some 2, [], true⟩
      (by simp) pairLoop_track1
    exact ⟨h.1, h.2 2 rfl⟩
  · have hl : limit_denominator ((3 : ℚ) / 2) 30 = some ((3 : ℚ) / 2) := by
      rw [limit_denominator, if_neg (by norm_num), if_pos (by norm_num)]
    have hres : resonances [(3 : ℚ) / 2] 30 = some [(3 : ℚ) / 2] := by
      rw [resonances, List.mapM_cons, hl]
      rfl
    exact C9_secondary_invariants.1 [(3 : ℚ) / 2] 30 [(3 : ℚ) / 2] hres

/-! Index-level helpers for the full-window resonant angles. -/

theorem zipWith_getD (f : ℚ → ℚ → ℚ) (xs ys : List ℚ) (j : ℕ)
    (hx : j < xs.length) (hy : j < ys.length) :
    (List.zipWith f xs ys).getD j 0 = f (xs.getD j 0) (ys.getD j 0) := by
  rw [List.getD_eq_getElem _ _ (by rw [List.length_zipWith]; exact lt_min hx hy),
    List.getD_eq_getElem _ _ hx, List.getD_eq_getElem _ _ hy, List.getElem_zipWith]

theorem mapQ_getD (f : ℚ → ℚ) (l : List ℚ) (j : ℕ) (h : j < l.length) :
    (l.map f).getD j 0 = f (l.getD j 0) := by
  rw [List.getD_eq_getElem _ _ (by simpa), List.getD_eq_getElem _ _ h, List.getElem_map]

theorem mapRec_getD (f : OrbRec → ℚ) (l : List OrbRec) (j : ℕ) (h : j < l.length) :
    (l.map f).getD j 0 = f (l.getD j zRec) := by
  rw [List.getD_eq_getElem _ _ (by simpa), List.getD_eq_getElem _ _ h, List.getElem_map]

theorem map_range_getD (g : ℕ → List ℚ) (n k : ℕ) (h : k < n) :
    ((List.range n).map g).getD k [] = g k := by
  rw [List.getD_eq_getElem _ _ (by simpa), List.getElem_map, List.getElem_range]

theorem phiRows_len (inner outer : List OrbRec) (res : ℚ)
    (h1 : inner.length = NB_LAST_POINTS) (h2 : outer.length = NB_LAST_POINTS) :
    phiRows inner outer res = some ((List.range (resOrder res + 1)).map (fun (i : ℕ) =>
      List.zipWith (fun u v => u - v)
        (List.zipWith (fun u v => u - v)
          (List.zipWith (fun u v => u - v)
            ((mean_longitude outer).map (fun v => (res.num : ℚ) * v))
            ((mean_longitude inner).map (fun v => (res.den : ℚ) * v)))
          ((long_of_peri inner).map (fun v => (i : ℚ) * v)))
        ((long_of_peri outer).map (fun v => (((resOrder res - i : ℕ) : ℤ) : ℚ) * v)))) := by
  have hml1 : (mean_longitude inner).length = NB_LAST_POINTS := by
    rw [mean_longitude, List.length_map, h1]
  have hml2 : (mean_longitude outer).length = NB_LAST_POINTS := by
    rw [mean_longitude, List.length_map, h2]
  have hlp1 : (long_of_peri inner).length = NB_LAST_POINTS := by
    rw [long_of_peri, List.length_map, h1]
  have hlp2 : (long_of_peri outer).length = NB_LAST_POINTS := by
    rw [long_of_peri, List.length_map, h2]
  rw [phiRows]
  rw [bcast_of_len (by rw [List.length_map, List.length_map, hml1, hml2])]
  simp only [Option.bind_eq_bind, Option.some_bind]
  apply mapM_eq_map
  intro i hi
  rw [bcast_of_len (by rw [List.length_zipWith, List.length_map, List.length_map,
    List.length_map, hml1, hml2, hlp1, min_self])]
  simp only [Option.bind_eq_bind, Option.some_bind]
  rw [bcast_of_len (by rw [List.length_zipWith, List.length_zipWith, List.length_map,
    List.length_map, List.length_map, List.length_map, hml1, hml2, hlp1, hlp2,
    min_self, min_self])]
  simp only [Option.bind_eq_bind, Option.some_bind]
  exact fillRow_of_len (by rw [List.length_zipWith, List.length_zipWith, List.length_zipWith,
    List.length_map, List.length_map, List.length_map, List.length_map, hml1, hml2,
    hlp1, hlp2, min_self, min_self, min_self])

/-- C2: with full trailing windows the detector builds exactly `q+1`
resonant-angle series, and the unfolded entry of series `k` at sample `j`
is `(p+q)` times the outer mean longitude (mean anomaly plus argument of
pericentre plus ascending node) minus `p` times the inner mean longitude,
minus `k` times the inner longitude of pericentre, minus `q-k` times the
outer longitude of pericentre. -/
theorem C2_phi_formula (inner outer : List OrbRec) (res : ℚ) (rows : List (List ℚ))
    (h1 : inner.length = NB_LAST_POINTS) (h2 : outer.length = NB_LAST_POINTS)
    (hrows : phiRows inner outer res = some rows) :
    rows.length = resOrder res + 1 ∧
    ∀ k j, k < resOrder res + 1 → j < NB_LAST_POINTS →
      (rows.getD k []).getD j 0 =
        (res.num : ℚ) * ((outer.getD j zRec).M + ((outer.getD j zRec).g + (outer.getD j zRec).n)) -
        (res.den : ℚ) * ((inner.getD j zRec).M + ((inner.getD j zRec).g + (inner.getD j zRec).n)) -
        (k : ℚ) * ((inner.getD j zRec).g + (inner.getD j zRec).n) -
        (((resOrder res - k : ℕ) : ℤ) : ℚ) * ((outer.getD j zRec).g + (outer.getD j zRec).n) := by
  rw [phiRows_len inner outer res h1 h2] at hrows
  cases Option.some.inj hrows
  constructor
  · rw [List.length_map, List.length_range]
  · intro k j hk hj
    have hj1 : j < inner.length := by rw [h1]; exact hj
    have hj2 : j < outer.length := by rw [h2]; exact hj
    have hml1 : j < (mean_longitude inner).length := by
      rw [mean_longitude, List.length_map]; exact hj1
    have hml2 : j < (mean_longitude outer).length := by
      rw [mean_longitude, List.length_map]; exact hj2
    have hlp1 : j < (long_of_peri inner).length := by
      rw [long_of_peri, List.length_map]; exact hj1
    have hlp2 : j < (long_of_peri outer).length := by
      rw [long_of_peri, List.length_map]; exact hj2
    rw [map_range_getD _ _ k hk]
    rw [zipWith_getD _ _ _ j
      (by rw [List.length_zipWith, List.length_zipWith, List.length_map, List.length_map,
        List.length_map]
          exact lt_min (lt_min hml2 hml1) hlp1)
      (by rw [List.length_map]; exact hlp2)]
    rw [zipWith_getD _ _ _ j
      (by rw [List.length_zipWith, List.length_map, List.length_map]
          exact lt_min hml2 hml1)
      (by rw [List.length_map]; exact hlp1)]
    rw [zipWith_getD _ _ _ j (by rw [List.length_map]; exact hml2)
      (by rw [List.length_map]; exact hml1)]
    rw [mapQ_getD _ _ j hml2, mapQ_getD _ _ j hml1, mapQ_getD _ _ j hlp1, mapQ_getD _ _ j hlp2]
    rw [mean_longitude, mean_longitude, long_of_peri, long_of_peri]
    rw [mapRec_getD _ _ j hj2, mapRec_getD _ _ j hj1, mapRec_getD _ _ j hj1,
      mapRec_getD _ _ j hj2]

/-- C2 witness: on concrete full-length all-zero tracks the candidate 2:1
produces a matrix with `resOrder 2 + 1` rows. -/
theorem C2_witness :
    (phiRows track50 track50 2).map List.length = some (resOrder 2 + 1) := by
  have hrows := phiRows_len track50 track50 2 (by rw [track50, List.length_replicate])
    (by rw [track50, List.length_replicate])
  have h := C2_phi_formula track50 track50 2 _ (by rw [track50, List.length_replicate])
    (by rw [track50, List.length_replicate]) hrows
  rw [hrows, Option.map_some', h.1]

/-! Behaviour on short and empty trailing windows. -/

theorem mapM_head_none {α β : Type} (f : α → Option β) (a : α) (l : List α)
    (h : f a = none) : (a :: l).mapM f = none := by
  rw [List.mapM_cons, h]
  rfl

theorem phiFold_nil_left (outer : List OrbRec) (res : ℚ) :
    phiFold [] outer res = none := by
  rcases outer with _ | ⟨r, _ | ⟨r2, rest⟩⟩
  · rw [phiFold, show phiRows [] [] res = (List.range (resOrder res + 1)).mapM
      (fun _ => fillRow NB_LAST_POINTS ([] : List ℚ)) from rfl,
      List.range_succ_eq_map, mapM_head_none _ _ _ rfl]
    rfl
  · rw [phiFold, show phiRows [] [r] res = (List.range (resOrder res + 1)).mapM
      (fun _ => fillRow NB_LAST_POINTS ([] : List ℚ)) from rfl,
      List.range_succ_eq_map, mapM_head_none _ _ _ rfl]
    rfl
  · rfl

theorem phiFold_nil_right (inner : List OrbRec) (res : ℚ) :
    phiFold inner [] res = none := by
  rcases inner with _ | ⟨r, _ | ⟨r2, rest⟩⟩
  · exact phiFold_nil_left [] res
  · rw [phiFold, show phiRows [r] [] res = (List.range (resOrder res + 1)).mapM
      (fun _ => fillRow NB_LAST_POINTS ([] : List ℚ)) from rfl,
      List.range_succ_eq_map, mapM_head_none _ _ _ rfl]
    rfl
  · rfl

theorem candStep_none_of_phiFold {i o : List OrbRec} {st : LoopState} {res : ℚ}
    (h : phiFold i o res = none) : candStep i o st res = none := by
  rw [candStep, h]
  rfl

theorem candStep_isSome_of_len (inner outer : List OrbRec) (res : ℚ) (st : LoopState)
    (h1 : inner.length = NB_LAST_POINTS) (h2 : outer.length = NB_LAST_POINTS) :
    (candStep inner outer st res).isSome = true := by
  obtain ⟨rows, hphi⟩ : ∃ rows, phiFold inner outer res = some rows :=
    ⟨_, by rw [phiFold, phiRows_len inner outer res h1 h2, Option.map_some']⟩
  obtain ⟨dl, hdl⟩ : ∃ dl, delta_longitude inner outer = some dl :=
    ⟨_, by rw [delta_longitude, bcast_of_len (by rw [long_of_peri, long_of_peri,
      List.length_map, List.length_map, h1, h2]), Option.map_some']⟩
  rw [candStep_eq inner outer st res rows dl hphi hdl]
  rfl

theorem foldlM_isSome {σ α : Type} (f : σ → α → Option σ) :
    ∀ (l : List α), (∀ s a, a ∈ l → (f s a).isSome = true) → ∀ s : σ,
      (List.foldlM f s l).isSome = true := by
  intro l
  induction l with
  | nil =>
    intro _ s
    rw [List.foldlM_nil]
    rfl
  | cons a as ih =>
    intro h s
    rw [List.foldlM_cons]
    cases hfa : f s a with
    | none =>
      have hh := h s a (List.mem_cons_self a as)
      rw [hfa] at hh
      simp at hh
    | some s1 =>
      exact ih (fun s' a' ha' => h s' a' (List.mem_cons_of_mem a ha')) s1

/-- C6 counterexample: with two-sample tracks (shorter than the trailing
window) and a candidate, writing the length-2 angle series into the
width-50 preallocated row raises a broadcast error (`none`) instead of
using the available samples; a zero-sample track likewise raises instead
of producing an empty pair result. -/
theorem C6_counterexample :
    pairLoop track2 track2 [2] = none ∧ pairLoop [] track50 [2] = none :=
  ⟨rfl, rfl⟩

/-- C6 (amended): the pair analysis completes for every candidate list when
both trailing windows hold exactly `NB_LAST_POINTS` samples; a body with an
empty track makes the first candidate raise a broadcast error, aborting the
pair (and with it the run), rather than yielding an empty result. -/
theorem C6_short_track_amended :
    (∀ (inner outer : List OrbRec) (cs : List ℚ),
       inner.length = NB_LAST_POINTS → outer.length = NB_LAST_POINTS →
       (pairLoop inner outer cs).isSome = true) ∧
    (∀ (outer : List OrbRec) (c : ℚ) (cs : List ℚ), pairLoop [] outer (c :: cs) = none) ∧
    (∀ (inner : List OrbRec) (c : ℚ) (cs : List ℚ), pairLoop inner [] (c :: cs) = none) := by
  refine ⟨?_, ?_, ?_⟩
  · intro inner outer cs h1 h2
    exact foldlM_isSome _ cs (fun s a _ => candStep_isSome_of_len inner outer a s h1 h2) _
  · intro outer c cs
    rw [pairLoop, List.foldlM_cons, candStep_none_of_phiFold (phiFold_nil_left outer c)]
    rfl
  · intro inner c cs
    rw [pairLoop, List.foldlM_cons, candStep_none_of_phiFold (phiFold_nil_right inner c)]
    rfl

/-- C6 witness: a pair of full-length all-zero tracks completes. -/
theorem C6_witness : (pairLoop track50 track50 [2]).isSome = true :=
  C6_short_track_amended.1 track50 track50 [2]
    (by rw [track50, List.length_replicate]) (by rw [track50, List.length_replicate])

/-- C8 counterexample: the scan centre is built from the `element.out`
semi-major axes (line 144 fills `period` from that file, line 250 takes the
ratio), not from the last trailing sample of the `.aei` tracks: on a pair
whose `element.out` values are 1 and 4 while the tracks end at semi-major
axes 1 and 9, the two prescriptions give `4^1.5` and `9^1.5`. -/
theorem C8_counterexample :
    periodRatio pairD8 ≠
      ((lastA pairD8.outer / lastA pairD8.inner : ℚ) : ℝ) ^ (1.5 : ℝ) := by
  have h1 : periodRatio pairD8 = ((4 : ℝ)) ^ (1.5 : ℝ) / ((1 : ℝ)) ^ (1.5 : ℝ) := by
    rw [periodRatio, period, period]
    norm_num [pairD8]
  have h2 : ((lastA pairD8.outer / lastA pairD8.inner : ℚ) : ℝ) = (9 : ℝ) := by
    have ho : lastA pairD8.outer = 9 := rfl
    have hi : lastA pairD8.inner = 1 := rfl
    rw [ho, hi]
    norm_num
  rw [h1, h2, Real.one_rpow, div_one]
  intro heq
  have hlt : ((4 : ℝ)) ^ (1.5 : ℝ) < ((9 : ℝ)) ^ (1.5 : ℝ) :=
    Real.rpow_lt_rpow (by norm_num) (by norm_num) (by norm_num)
  exact absurd heq (ne_of_lt hlt)

/-- C8 (amended): the scan-centring period ratio equals
`(a_outer / a_inner) ^ 1.5` with the semi-major axes taken from the
per-planet `element.out` summary, not from the trailing track samples. -/
theorem C8_periodRatio_amended (d : PairData)
    (h1 : 0 ≤ d.aElemInner) (h2 : 0 ≤ d.aElemOuter) :
    periodRatio d = ((d.aElemOuter / d.aElemInner : ℚ) : ℝ) ^ (1.5 : ℝ) := by
  rw [periodRatio, period, period, Rat.cast_div,
    Real.div_rpow (by exact_mod_cast h2) (by exact_mod_cast h1)]

/-- C8 witness: the amended formula at the concrete pair data. -/
theorem C8_witness :
    periodRatio pairD8 = ((pairD8.aElemOuter / pairD8.aElemInner : ℚ) : ℝ) ^ (1.5 : ℝ) :=
  C8_periodRatio_amended pairD8 (by norm_num [pairD8]) (by norm_num [pairD8])

/-- C10 counterexample: after the fully parsed line `(1,2,3,4,5)`, a line
whose first column converts to 9 and whose remaining columns fail appends
`(9,2,3,4,5)` — a mixture of the malformed line's parsed prefix and the
previous values — not a duplicate of its predecessor. -/
theorem C10_counterexample :
    readLines initVars [goodLine, mixLine] =
      Except.ok ([⟨1, 2, 3, 4, 5⟩, ⟨9, 2, 3, 4, 5⟩],
        ⟨some 9, some 2, some 3, some 4, some 5⟩) ∧
      (⟨9, 2, 3, 4, 5⟩ : OrbRec) ≠ (⟨1, 2, 3, 4, 5⟩ : OrbRec) := by
  refine ⟨rfl, fun h => ?_⟩
  have h1 : (9 : ℚ) = 1 := congrArg OrbRec.t h
  norm_num at h1

/-- C10 (amended): the sample count always equals the line count on a
successful read; a line whose conversions all fail appends the previously
parsed record again (for later bodies the values carried over from the
previous file, so no error is raised there); a line with a parsed prefix
overwrites just those variables, appending a mixed record; and reading
fails with a `NameError` only when some variable has never been assigned —
in particular when the very first line of the first file is malformed. -/
theorem C10_reader_amended :
    (∀ (st : ParseVars) (ls : List RawLine) (rs : List OrbRec) (stF : ParseVars),
       readLines st ls = Except.ok (rs, stF) → rs.length = ls.length) ∧
    (∀ (r : OrbRec) (ls : List RawLine),
       readLines (varsOf r) (allNoneLine :: ls) =
         (readLines (varsOf r) ls).map (fun p => (r :: p.1, p.2))) ∧
    (∀ (r : OrbRec) (tv : ℚ) (ls : List RawLine),
       readLines (varsOf r) (⟨some tv, none, none, none, none⟩ :: ls) =
         (readLines (⟨some tv, some r.a, some r.g, some r.n, some r.M⟩ : ParseVars) ls).map
           (fun p => ((⟨tv, r.a, r.g, r.n, r.M⟩ : OrbRec) :: p.1, p.2))) ∧
    (∀ (l : RawLine) (ls : List RawLine), l.t = none →
       readLines initVars (l :: ls) = Except.error ()) := by
  refine ⟨?_, ?_, ?_, ?_⟩
  · intro st ls
    induction ls generalizing st with
    | nil =>
      intro rs stF h
      cases h
      rfl
    | cons l ls' ih =>
      intro rs stF h
      rw [readLines] at h
      cases hv : appendVars (tryLine st l) with
      | error e => rw [hv] at h; exact Except.noConfusion h
      | ok r =>
        rw [hv] at h
        cases hrec : readLines (tryLine st l) ls' with
        | error e =>
          rw [hrec] at h
          exact Except.noConfusion h
        | ok p =>
          rw [hrec] at h
          cases h
          simp [ih (tryLine st l) p.1 p.2 (by rw [hrec])]
  · intro r ls
    have ht : tryLine (varsOf r) allNoneLine = varsOf r := rfl
    have ha : appendVars (varsOf r) = Except.ok r := rfl
    rw [readLines, ht, ha]
    cases hrec : readLines (varsOf r) ls with
    | error e => rfl
    | ok p => rfl
  · intro r tv ls
    have ht : tryLine (varsOf r) (⟨some tv, none, none, none, none⟩ : RawLine) =
        (⟨some tv, some r.a, some r.g, some r.n, some r.M⟩ : ParseVars) := rfl
    rw [readLines, ht]
    cases hrec : readLines (⟨some tv, some r.a, some r.g, some r.n, some r.M⟩ : ParseVars) ls with
    | error e => rfl
    | ok p => rfl
  · intro l ls ht
    rcases l with ⟨lt, la, lg, ln, lM⟩
    cases ht
    rfl

/-- C10 witness: a fully malformed line after a parsed record duplicates
that record without failing, preserving the count, while a malformed first
line of the run fails. -/
theorem C10_witness :
    readLines (varsOf ⟨1, 2, 3, 4, 5⟩) [allNoneLine] =
      Except.ok ([⟨1, 2, 3, 4, 5⟩], varsOf ⟨1, 2, 3, 4, 5⟩) ∧
      readLines initVars [allNoneLine] = Except.error () ∧
      ([(⟨1, 2, 3, 4, 5⟩ : OrbRec)]).length = ([allNoneLine]).length := by
  have h1 : readLines (varsOf ⟨1, 2, 3, 4, 5⟩) [allNoneLine] =
      Except.ok ([⟨1, 2, 3, 4, 5⟩], varsOf ⟨1, 2, 3, 4, 5⟩) := by
    rw [C10_reader_amended.2.1 ⟨1, 2, 3, 4, 5⟩ []]
    rfl
  exact ⟨h1, C10_reader_amended.2.2.2 allNoneLine [] rfl,
    C10_reader_amended.1 (varsOf ⟨1, 2, 3, 4, 5⟩) [allNoneLine] _ _ h1⟩

end MercuryRes
